import Mathlib

/-!
Verification of the REINFORCE policy-gradient notebook
(chapter17_deep-reinforcement-learning/policy-gradient.ipynb).

The numeric code of the notebook is embedded shallowly:

* `Episode` mirrors the `Episode` class (three parallel Python lists).
* `discountRewards` is the reverse-accumulation loop of `Agent.train`
  (`keep = keep * discount + r[i]; r[i] = keep`, iterating from the last
  index down to index 0 with `keep` starting at `0`).
* `listMean` / `subtractBaseline` model `r -= mx.nd.mean(r)`.
* `softmax`, `clip`, `onehot`, `trainLoss` model the forward pass of
  `Agent.train` and the sampling distribution of `Agent.act` over `ℝ`
  (the idealisation of the library's floating point arithmetic).
* `runEpisodeAux` / `run_episode` model the `while not done` collection
  loop with an explicit fuel bound, returning `none` when the fuel is
  exhausted before the environment signals `done`.
* `rewardLogAux` / `rewardLog` model the moving-average bookkeeping of the
  training loop.
* `preprocessCurr` / `preprocessStep` / `atariReset` model the
  `AtariPreprocessedEnv` wrapper.

Machine reals of the source are embedded as exact fields (`ℚ` where a
decidable check is wanted, `ℝ` where `exp`/`log` appear); integer indices
are `ℕ`.
-/

namespace PolicyGradient

/-- The `Episode` class of the notebook: three parallel append-only lists
(observation, action, reward), appended to together once per step.
`Obs` is the observation type and `ρ` the numeric type of rewards. -/
structure Episode (Obs ρ : Type) where
  observation : List Obs
  action : List ℕ
  reward : List ρ
deriving DecidableEq

/-- `Episode.append(self, s, a, r)`: each of the three Python lists gets one
element appended at its end. -/
def Episode.app {Obs ρ : Type} (ep : Episode Obs ρ) (s : Obs) (a : ℕ) (r : ρ) :
    Episode Obs ρ :=
  ⟨ep.observation ++ [s], ep.action ++ [a], ep.reward ++ [r]⟩

/-- The reverse-accumulation discount loop of `Agent.train`:
`keep = 0; for i in reversed(range(len(r))): keep = keep*γ + r[i]; r[i] = keep`.
Processing the suffix first, the accumulator `keep` after the suffix is the
head of the already-rewritten suffix (or `0` when the suffix is empty), so the
value written at the current index is `keep * γ + r[i]`. -/
def discountRewards {α : Type} [Ring α] (γ : α) : List α → List α
  | [] => []
  | x :: xs =>
    let rest := discountRewards γ xs
    (rest.headD 0 * γ + x) :: rest

/-- `mx.nd.mean`: the arithmetic mean of a list (sum divided by length). -/
def listMean {α : Type} [DivisionRing α] (l : List α) : α :=
  l.sum / (l.length : α)

/-- The baseline-subtraction step `r -= mx.nd.mean(r)` of `Agent.train`. -/
def subtractBaseline {α : Type} [DivisionRing α] (G : List α) : List α :=
  G.map (fun g => g - listMean G)

theorem discountRewards_length {α : Type} [Ring α] (γ : α) (r : List α) :
    (discountRewards γ r).length = r.length := by
  induction r with
  | nil => rfl
  | cons x xs ih => simp [discountRewards, ih]

theorem headD_eq_getD {α : Type} (l : List α) (d : α) : l.headD d = l.getD 0 d := by
  cases l <;> rfl

theorem discountRewards_getD {α : Type} [CommRing α] (γ : α) (r : List α)
    (i : ℕ) :
    (discountRewards γ r).getD i 0 =
      ∑ k ∈ Finset.range (r.length - i), γ ^ k * r.getD (i + k) 0 := by
  induction r generalizing i with
  | nil => simp [discountRewards]
  | cons x xs ih =>
    cases i with
    | zero =>
      have hhead : (discountRewards γ (x :: xs)).getD 0 0 =
          (discountRewards γ xs).getD 0 0 * γ + x := by
        have hexp : discountRewards γ (x :: xs) =
            ((discountRewards γ xs).headD 0 * γ + x) :: discountRewards γ xs := rfl
        rw [hexp, List.getD_cons_zero, headD_eq_getD]
      rw [hhead, ih 0]
      simp only [Nat.zero_add, List.length_cons, Nat.sub_zero]
      rw [Finset.sum_range_succ']
      have hterm : ∀ k, γ ^ (k + 1) * (x :: xs).getD (k + 1) 0 =
          γ * (γ ^ k * xs.getD k 0) := by
        intro k
        rw [List.getD_cons_succ, pow_succ]
        ring
      rw [Finset.sum_congr rfl (fun k _ => hterm k), ← Finset.mul_sum]
      simp only [pow_zero, one_mul, List.getD_cons_zero]
      ring
    | succ j =>
      have hstep : (discountRewards γ (x :: xs)).getD (j + 1) 0 =
          (discountRewards γ xs).getD j 0 := by
        simp [discountRewards]
      rw [hstep, ih j]
      have hlen : (x :: xs).length - (j + 1) = xs.length - j := by
        simp only [List.length_cons]
        omega
      rw [hlen]
      refine Finset.sum_congr rfl (fun k _ => ?_)
      have hidx : j + 1 + k = (j + k) + 1 := by omega
      rw [hidx, List.getD_cons_succ]

/-- C1: the reverse-accumulation loop of `Agent.train` computes the
discounted return-to-go `G[i] = ∑_{k} γ^k · r[i+k]` at every index, and on
the reward sequence `[1,1,1]` with `γ = 0.99` it yields
`[2.9701, 1.99, 1.0]`. -/
theorem discount_returns_correct :
    (∀ {α : Type} [CommRing α] (γ : α) (r : List α) (i : ℕ),
        (discountRewards γ r).getD i 0 =
          ∑ k ∈ Finset.range (r.length - i), γ ^ k * r.getD (i + k) 0) ∧
      discountRewards (0.99 : ℚ) [1, 1, 1] = [2.9701, 1.99, 1.0] := by
  constructor
  · intro α _ γ r i
    exact discountRewards_getD γ r i
  · norm_num [discountRewards]

theorem sum_map_sub_const {α : Type} [Field α] (l : List α) (c : α) :
    (l.map (fun x => x - c)).sum = l.sum - (l.length : α) * c := by
  induction l with
  | nil => simp
  | cons x xs ih =>
    simp only [List.map_cons, List.sum_cons, ih, List.length_cons]
    push_cast
    ring

/-- C3: after the baseline subtraction `r -= mx.nd.mean(r)` of `Agent.train`,
the mean of any non-empty return sequence is exactly `0`. -/
theorem baseline_zero_mean {α : Type} [Field α] [CharZero α] (G : List α)
    (hG : G ≠ []) : listMean (subtractBaseline G) = 0 := by
  have hlen : (G.length : α) ≠ 0 := by
    have : G.length ≠ 0 := by
      intro h
      exact hG (List.length_eq_zero.mp h)
    exact_mod_cast this
  unfold listMean subtractBaseline
  rw [sum_map_sub_const, List.length_map]
  unfold listMean
  rw [mul_div_cancel₀ _ hlen]
  simp

/-- Witness for C3 at the concrete return sequence `[1, 2, 4]` over `ℚ`. -/
theorem baseline_zero_mean_witness :
    ([1, 2, 4] : List ℚ) ≠ [] ∧ listMean (subtractBaseline ([1, 2, 4] : List ℚ)) = 0 :=
  ⟨by decide, baseline_zero_mean [1, 2, 4] (by decide)⟩

/-- `mx.nd.clip(data, a_min, a_max)`: clamp `x` into `[lo, hi]`. -/
noncomputable def clip (x lo hi : ℝ) : ℝ := min (max x lo) hi

/-- C9: the probability clip into `[1e-6, 1 - 1e-6]` used before the logarithm
in `Agent.train` is idempotent. -/
theorem clip_idempotent (x : ℝ) :
    clip (clip x 1e-6 (1 - 1e-6)) 1e-6 (1 - 1e-6) = clip x 1e-6 (1 - 1e-6) := by
  unfold clip
  have hlo : (1e-6 : ℝ) ≤ min (max x 1e-6) (1 - 1e-6) :=
    le_min (le_max_right x 1e-6) (by norm_num)
  rw [max_eq_left hlo, min_eq_left (min_le_right _ _)]

/-- State of the `Episode` object after `Agent.train(episode)` returns. In the
source, `r = episode.reward` aliases the Python list and the discount loop
assigns `r[i] = keep` in place, so the episode's reward list is overwritten
with the discounted returns (`discount = 0.99 = 99/100`); `s` and `a` are only
read, and every later operation (`mx.nd.array`, `one_hot`, the baseline
subtraction) acts on fresh NDArray copies, not on the Python lists. -/
def trainRewardEffect {Obs ρ : Type} [DivisionRing ρ] (ep : Episode Obs ρ) :
    Episode Obs ρ :=
  { ep with reward := discountRewards (99 / 100 : ρ) ep.reward }

/-- C2 counterexample: for the episode with rewards `[1, 1, 1]`, the reward
list after `Agent.train` is `[2.9701, 1.99, 1]`, not the original `[1, 1, 1]`:
the episode is not consumed read-only. -/
theorem train_mutates_rewards_cex :
    (trainRewardEffect (⟨[0], [0], [1, 1, 1]⟩ : Episode ℚ ℚ)).reward ≠ [1, 1, 1] := by
  norm_num [trainRewardEffect, discountRewards]

/-- C2 (amended): `Agent.train` leaves the episode's observation and action
lists unchanged, but overwrites its reward list in place with the discounted
returns (a list of the same length as the original rewards). -/
theorem train_reward_overwrite {Obs ρ : Type} [DivisionRing ρ]
    (ep : Episode Obs ρ) :
    (trainRewardEffect ep).observation = ep.observation ∧
      (trainRewardEffect ep).action = ep.action ∧
      (trainRewardEffect ep).reward = discountRewards (99 / 100 : ρ) ep.reward ∧
      (trainRewardEffect ep).reward.length = ep.reward.length :=
  ⟨rfl, rfl, rfl, discountRewards_length _ _⟩

/-- `reward = sum(episode.reward)` of the training loop. -/
def totalReward {Obs ρ : Type} [Ring ρ] (ep : Episode Obs ρ) : ρ :=
  ep.reward.sum

/-- The moving-average bookkeeping of the training loop, producing one entry
of `reward_log` per episode: `mean_reward = reward` when `i == 0`, and
`mean_reward = 0.99 * mean_reward + 0.01 * reward` otherwise
(`0.99 = 99/100`, `0.01 = 1/100`). -/
def rewardLogAux {α : Type} [DivisionRing α] : List α → ℕ → α → List α
  | [], _, _ => []
  | r :: rest, i, m =>
    let m2 := if i = 0 then r else (99 / 100 : α) * m + (1 / 100 : α) * r
    m2 :: rewardLogAux rest (i + 1) m2

/-- `reward_log` of a whole training run: the loop starts at episode index
`i = 0` with `mean_reward = 0`. -/
def rewardLog {α : Type} [DivisionRing α] (rs : List α) : List α :=
  rewardLogAux rs 0 0

theorem rewardLogAux_getD_succ {α : Type} [DivisionRing α] (rs : List α)
    (m : α) (i j : ℕ) (hi : i ≠ 0) (hj : j + 1 < rs.length) :
    (rewardLogAux rs i m).getD (j + 1) 0 =
      (99 / 100 : α) * (rewardLogAux rs i m).getD j 0 +
        (1 / 100 : α) * rs.getD (j + 1) 0 := by
  induction rs generalizing m i j with
  | nil => simp at hj
  | cons r rest ih =>
    have hm2 : rewardLogAux (r :: rest) i m =
        ((99 / 100 : α) * m + (1 / 100 : α) * r) ::
          rewardLogAux rest (i + 1) ((99 / 100 : α) * m + (1 / 100 : α) * r) := by
      simp [rewardLogAux, hi]
    cases j with
    | zero =>
      rw [hm2, List.getD_cons_succ, List.getD_cons_zero, List.getD_cons_succ]
      obtain ⟨r2, rest2, hrest⟩ : ∃ r2 rest2, rest = r2 :: rest2 := by
        cases rest with
        | nil => simp at hj
        | cons a b => exact ⟨a, b, rfl⟩
      subst hrest
      simp [rewardLogAux]
    | succ j2 =>
      rw [hm2, List.getD_cons_succ, List.getD_cons_succ, List.getD_cons_succ]
      refine ih _ (i + 1) j2 (Nat.succ_ne_zero i) ?_
      simp only [List.length_cons] at hj
      omega

theorem rewardLog_getD_succ {α : Type} [DivisionRing α] (rs : List α)
    (j : ℕ) (hj : j + 1 < rs.length) :
    (rewardLog rs).getD (j + 1) 0 =
      (99 / 100 : α) * (rewardLog rs).getD j 0 +
        (1 / 100 : α) * rs.getD (j + 1) 0 := by
  cases rs with
  | nil => simp at hj
  | cons x xs =>
    have hexp : rewardLog (x :: xs) = x :: rewardLogAux xs 1 x := by
      simp [rewardLog, rewardLogAux]
    cases j with
    | zero =>
      rw [hexp, List.getD_cons_succ, List.getD_cons_zero, List.getD_cons_succ]
      obtain ⟨y, ys, hxs⟩ : ∃ y ys, xs = y :: ys := by
        cases xs with
        | nil => simp at hj
        | cons a b => exact ⟨a, b, rfl⟩
      subst hxs
      simp [rewardLogAux]
    | succ j2 =>
      rw [hexp, List.getD_cons_succ, List.getD_cons_succ, List.getD_cons_succ]
      refine rewardLogAux_getD_succ xs x 1 j2 one_ne_zero ?_
      simp only [List.length_cons] at hj
      omega

/-- C8: the progress-reporting moving average satisfies `mean_0 = reward_0`
and `mean_i = 0.99 * mean_{i-1} + 0.01 * reward_i` for `1 ≤ i < n`, where
`reward_i` is the sum of the `i`-th episode's rewards. -/
theorem mean_reward_recurrence {Obs α : Type} [DivisionRing α]
    (eps : List (Episode Obs α)) (i : ℕ)
    (h0 : 0 < eps.length) (h1 : 0 < i) (hi : i < eps.length) :
    (rewardLog (eps.map totalReward)).getD 0 0 =
        totalReward (eps.getD 0 ⟨[], [], []⟩) ∧
      (rewardLog (eps.map totalReward)).getD i 0 =
        (99 / 100 : α) * (rewardLog (eps.map totalReward)).getD (i - 1) 0 +
          (1 / 100 : α) * totalReward (eps.getD i ⟨[], [], []⟩) := by
  have hmap : ∀ k, (eps.map totalReward).getD k 0 =
      totalReward (eps.getD k ⟨[], [], []⟩) := by
    intro k
    have h := List.getD_map eps (⟨[], [], []⟩ : Episode Obs α) (n := k) totalReward
    simpa [totalReward] using h
  constructor
  · obtain ⟨e, tl, heps⟩ : ∃ e tl, eps = e :: tl := by
      cases eps with
      | nil => simp at h0
      | cons a b => exact ⟨a, b, rfl⟩
    subst heps
    simp [rewardLog, rewardLogAux]
  · obtain ⟨j, hij⟩ : ∃ j, i = j + 1 := ⟨i - 1, by omega⟩
    subst hij
    have hj : j + 1 < (eps.map totalReward).length := by
      simpa using hi
    have h := rewardLog_getD_succ (eps.map totalReward) j hj
    rw [h, hmap]
    simp

/-- Witness for C8 on a concrete two-episode run over `ℚ`:
episode totals `2` and `4`, checked at index `i = 1`. -/
theorem mean_reward_recurrence_witness :
    (rewardLog (([⟨[0], [0], [2]⟩, ⟨[0], [0], [4]⟩] :
          List (Episode ℚ ℚ)).map totalReward)).getD 0 0 =
        totalReward (([⟨[0], [0], [2]⟩, ⟨[0], [0], [4]⟩] :
          List (Episode ℚ ℚ)).getD 0 ⟨[], [], []⟩) ∧
      (rewardLog (([⟨[0], [0], [2]⟩, ⟨[0], [0], [4]⟩] :
          List (Episode ℚ ℚ)).map totalReward)).getD 1 0 =
        (99 / 100 : ℚ) * (rewardLog (([⟨[0], [0], [2]⟩, ⟨[0], [0], [4]⟩] :
          List (Episode ℚ ℚ)).map totalReward)).getD (1 - 1) 0 +
          (1 / 100 : ℚ) * totalReward (([⟨[0], [0], [2]⟩, ⟨[0], [0], [4]⟩] :
            List (Episode ℚ ℚ)).getD 1 ⟨[], [], []⟩) :=
  mean_reward_recurrence _ 1 (by decide) (by decide) (by decide)

/-- The gym environment surface consumed by `run_episode`: a `reset` result
(internal state plus initial observation) and a `step` function returning the
new internal state together with `(next_observation, reward, done)`; the
`info` component of the Python tuple is discarded by the loop. `act` is the
agent's (sampled) action choice per observation. -/
structure GymEnv (σ Obs ρ : Type) where
  state0 : σ
  obs0 : Obs
  step : σ → ℕ → σ × Obs × ρ × Bool

/-- The `while not done` body of `run_episode` with an explicit fuel bound:
each iteration asks the agent for an action, steps the environment, appends
`(observation, action, reward)` with the pre-step observation, advances the
observation, and stops when `done` is true. `none` means the fuel ran out
before the environment signalled `done`. -/
def runEpisodeAux {σ Obs ρ : Type} (env : GymEnv σ Obs ρ) (act : Obs → ℕ) :
    ℕ → σ → Obs → Episode Obs ρ → Option (Episode Obs ρ)
  | 0, _, _, _ => none
  | fuel + 1, st, obs, ep =>
    let a := act obs
    let res := env.step st a
    let ep2 := ep.app obs a res.2.2.1
    if res.2.2.2 then some ep2
    else runEpisodeAux env act fuel res.1 res.2.1 ep2

/-- `run_episode(env, agent, render)`: start from a fresh `Episode` and the
environment's reset observation. Rendering is a no-op for the collected data
and is not modelled. -/
def run_episode {σ Obs ρ : Type} (env : GymEnv σ Obs ρ) (act : Obs → ℕ)
    (fuel : ℕ) : Option (Episode Obs ρ) :=
  runEpisodeAux env act fuel env.state0 env.obs0 ⟨[], [], []⟩

/-- The (state, observation) pair reached after `n` iterations of the
collection loop, ignoring termination flags. -/
def envTraj {σ Obs ρ : Type} (env : GymEnv σ Obs ρ) (act : Obs → ℕ) :
    ℕ → σ × Obs
  | 0 => (env.state0, env.obs0)
  | n + 1 =>
    let p := envTraj env act n
    let res := env.step p.1 (act p.2)
    (res.1, res.2.1)

/-- The `done` flag produced by the `n`-th iteration (0-based) of the
collection loop. -/
def doneAt {σ Obs ρ : Type} (env : GymEnv σ Obs ρ) (act : Obs → ℕ)
    (n : ℕ) : Bool :=
  (env.step (envTraj env act n).1 (act (envTraj env act n).2)).2.2.2

theorem runEpisodeAux_lengths {σ Obs ρ : Type} (env : GymEnv σ Obs ρ)
    (act : Obs → ℕ) (fuel : ℕ) (st : σ) (obs : Obs) (ep ep2 : Episode Obs ρ)
    (h : runEpisodeAux env act fuel st obs ep = some ep2) :
    ∃ k, 0 < k ∧
      ep2.observation.length = ep.observation.length + k ∧
      ep2.action.length = ep.action.length + k ∧
      ep2.reward.length = ep.reward.length + k := by
  induction fuel generalizing st obs ep with
  | zero => simp [runEpisodeAux] at h
  | succ f ih =>
    rw [runEpisodeAux] at h
    by_cases hdone : (env.step st (act obs)).2.2.2 = true
    · rw [if_pos hdone] at h
      refine ⟨1, Nat.one_pos, ?_, ?_, ?_⟩ <;>
        simp [← Option.some_inj.mp h, Episode.app]
    · rw [if_neg hdone] at h
      obtain ⟨k, hk, h1, h2, h3⟩ := ih _ _ _ h
      refine ⟨k + 1, Nat.succ_pos k, ?_, ?_, ?_⟩ <;>
        simp [Episode.app] at h1 h2 h3 <;> omega

/-- C4: every episode that `run_episode` completes has observation, action and
reward lists of one common length, and that length is at least 1. -/
theorem run_episode_alignment {σ Obs ρ : Type} (env : GymEnv σ Obs ρ)
    (act : Obs → ℕ) (fuel : ℕ) (ep : Episode Obs ρ)
    (h : run_episode env act fuel = some ep) :
    ep.observation.length = ep.action.length ∧
      ep.action.length = ep.reward.length ∧ 1 ≤ ep.reward.length := by
  obtain ⟨k, hk, h1, h2, h3⟩ := runEpisodeAux_lengths env act fuel _ _ _ ep h
  simp only [List.length_nil, Nat.zero_add] at h1 h2 h3
  omega

/-- A deterministic stub environment counting its steps: `step` increments the
state and signals `done` exactly when the incremented counter reaches 2, so an
episode lasts two steps. -/
def envTwoStep : GymEnv ℕ ℕ ℚ :=
  ⟨0, 0, fun s _ => (s + 1, s + 1, 1, decide (s + 1 = 2))⟩

/-- Witness for C4 on the two-step stub environment. -/
theorem run_episode_alignment_witness :
    run_episode envTwoStep (fun _ => 0) 5 =
        some (⟨[0, 1], [0, 0], [1, 1]⟩ : Episode ℕ ℚ) ∧
      ((⟨[0, 1], [0, 0], [1, 1]⟩ : Episode ℕ ℚ).observation.length =
          (⟨[0, 1], [0, 0], [1, 1]⟩ : Episode ℕ ℚ).action.length ∧
        (⟨[0, 1], [0, 0], [1, 1]⟩ : Episode ℕ ℚ).action.length =
          (⟨[0, 1], [0, 0], [1, 1]⟩ : Episode ℕ ℚ).reward.length ∧
        1 ≤ (⟨[0, 1], [0, 0], [1, 1]⟩ : Episode ℕ ℚ).reward.length) :=
  ⟨by decide, run_episode_alignment envTwoStep (fun _ => 0) 5 _ (by decide)⟩

theorem runEpisodeAux_none_of_never_done {σ Obs ρ : Type}
    (env : GymEnv σ Obs ρ) (act : Obs → ℕ)
    (hnever : ∀ i, doneAt env act i = false) :
    ∀ fuel k ep, runEpisodeAux env act fuel (envTraj env act k).1
      (envTraj env act k).2 ep = none := by
  intro fuel
  induction fuel with
  | zero => intro k ep; rfl
  | succ f ih =>
    intro k ep
    rw [runEpisodeAux]
    have hd : (env.step (envTraj env act k).1 (act (envTraj env act k).2)).2.2.2 =
        false := hnever k
    rw [if_neg (by simp [hd])]
    have hst : (env.step (envTraj env act k).1 (act (envTraj env act k).2)).1 =
        (envTraj env act (k + 1)).1 := rfl
    have hob : (env.step (envTraj env act k).1 (act (envTraj env act k).2)).2.1 =
        (envTraj env act (k + 1)).2 := rfl
    rw [hst, hob]
    exact ih (k + 1) _

theorem runEpisodeAux_some_of_done {σ Obs ρ : Type}
    (env : GymEnv σ Obs ρ) (act : Obs → ℕ) :
    ∀ (j fuel k : ℕ) (ep : Episode Obs ρ),
      doneAt env act (k + j) = true →
      (∀ i, i < j → doneAt env act (k + i) = false) →
      j < fuel →
      ∃ ep2, runEpisodeAux env act fuel (envTraj env act k).1
          (envTraj env act k).2 ep = some ep2 ∧
        ep2.reward.length = ep.reward.length + (j + 1) := by
  intro j
  induction j with
  | zero =>
    intro fuel k ep hdone _ hfuel
    obtain ⟨f, rfl⟩ : ∃ f, fuel = f + 1 := ⟨fuel - 1, by omega⟩
    rw [runEpisodeAux]
    have hd : (env.step (envTraj env act k).1 (act (envTraj env act k).2)).2.2.2 =
        true := by simpa [Nat.add_zero] using hdone
    rw [if_pos hd]
    exact ⟨_, rfl, by simp [Episode.app]⟩
  | succ j2 ih =>
    intro fuel k ep hdone hbefore hfuel
    obtain ⟨f, rfl⟩ : ∃ f, fuel = f + 1 := ⟨fuel - 1, by omega⟩
    rw [runEpisodeAux]
    have hd : (env.step (envTraj env act k).1 (act (envTraj env act k).2)).2.2.2 =
        false := by simpa using hbefore 0 (Nat.succ_pos j2)
    rw [if_neg (by simp [hd])]
    have hst : (env.step (envTraj env act k).1 (act (envTraj env act k).2)).1 =
        (envTraj env act (k + 1)).1 := rfl
    have hob : (env.step (envTraj env act k).1 (act (envTraj env act k).2)).2.1 =
        (envTraj env act (k + 1)).2 := rfl
    rw [hst, hob]
    have hdone2 : doneAt env act (k + 1 + j2) = true := by
      have : k + 1 + j2 = k + (j2 + 1) := by omega
      rw [this]; exact hdone
    have hbefore2 : ∀ i, i < j2 → doneAt env act (k + 1 + i) = false := by
      intro i hij
      have : k + 1 + i = k + (i + 1) := by omega
      rw [this]; exact hbefore (i + 1) (by omega)
    obtain ⟨ep2, hret, hlen⟩ :=
      ih f (k + 1) (ep.app (envTraj env act k).2 (act (envTraj env act k).2)
        (env.step (envTraj env act k).1 (act (envTraj env act k).2)).2.2.1)
        hdone2 hbefore2 (by omega)
    refine ⟨ep2, hret, ?_⟩
    simp [Episode.app] at hlen
    omega

/-- C7: the collection loop terminates exactly when the environment signals
`done`: if `done` is never signalled the loop returns `none` for every fuel
bound (it never completes), and if `done` is first signalled at iteration `n`
the loop completes (given enough fuel) with exactly `n + 1` recorded
transitions. -/
theorem run_episode_terminates_iff_done {σ Obs ρ : Type}
    (env : GymEnv σ Obs ρ) (act : Obs → ℕ) :
    ((∀ i, doneAt env act i = false) →
        ∀ fuel, run_episode env act fuel = none) ∧
      (∀ n fuel, doneAt env act n = true →
        (∀ i, i < n → doneAt env act i = false) → n < fuel →
        ∃ ep, run_episode env act fuel = some ep ∧
          ep.reward.length = n + 1) := by
  constructor
  · intro hnever fuel
    exact runEpisodeAux_none_of_never_done env act hnever fuel 0 _
  · intro n fuel hdone hbefore hfuel
    obtain ⟨ep, hret, hlen⟩ := runEpisodeAux_some_of_done env act n fuel 0
      ⟨[], [], []⟩ (by simpa using hdone) (fun i hi => by simpa using hbefore i hi)
      hfuel
    exact ⟨ep, hret, by simpa using hlen⟩

/-- A stub environment that never signals `done`. -/
def envNeverDone : GymEnv Unit Unit ℚ :=
  ⟨(), (), fun _ _ => ((), (), 0, false)⟩

/-- Witness for C7: the never-`done` stub yields `none` at fuel 5, and the
two-step stub (first `done` at iteration 1) yields an episode of exactly 2
transitions. -/
theorem run_episode_terminates_iff_done_witness :
    run_episode envNeverDone (fun _ => 0) 5 = none ∧
      ∃ ep, run_episode envTwoStep (fun _ => 0) 5 = some ep ∧
        ep.reward.length = 1 + 1 :=
  ⟨(run_episode_terminates_iff_done envNeverDone (fun _ => 0)).1
      (fun _ => rfl) 5,
    (run_episode_terminates_iff_done envTwoStep (fun _ => 0)).2 1 5
      (by decide) (by decide) (by decide)⟩

/-- `mx.nd.softmax` on one logit row: normalised exponentials. -/
noncomputable def softmax (v : List ℝ) : List ℝ :=
  v.map (fun x => Real.exp x / (v.map Real.exp).sum)

theorem exp_sum_pos (v : List ℝ) (hv : v ≠ []) : 0 < (v.map Real.exp).sum := by
  cases v with
  | nil => exact absurd rfl hv
  | cons x xs =>
    simp only [List.map_cons, List.sum_cons]
    have h1 : 0 < Real.exp x := Real.exp_pos x
    have h2 : 0 ≤ (xs.map Real.exp).sum := by
      refine List.sum_nonneg (fun y hy => ?_)
      obtain ⟨z, _, rfl⟩ := List.mem_map.mp hy
      exact le_of_lt (Real.exp_pos z)
    linarith

theorem sum_map_div (l : List ℝ) (c : ℝ) :
    (l.map (fun x => x / c)).sum = l.sum / c := by
  induction l with
  | nil => simp
  | cons x xs ih => simp [ih, add_div]

theorem softmax_nonneg (v : List ℝ) : ∀ p ∈ softmax v, 0 ≤ p := by
  intro p hp
  obtain ⟨x, hx, rfl⟩ := List.mem_map.mp hp
  have hnum : 0 < Real.exp x := Real.exp_pos x
  have hden : 0 < (v.map Real.exp).sum :=
    exp_sum_pos v (by rintro rfl; simp at hx)
  positivity

theorem softmax_sum_one (v : List ℝ) (hv : v ≠ []) : (softmax v).sum = 1 := by
  unfold softmax
  have hcomp : v.map (fun x => Real.exp x / (v.map Real.exp).sum) =
      (v.map Real.exp).map (fun y => y / (v.map Real.exp).sum) := by
    rw [List.map_map]
    rfl
  rw [hcomp, sum_map_div, div_self (ne_of_gt (exp_sum_pos v hv))]

/-- Inverse-CDF model of `np.random.choice(np.arange(n), p=policy)`: `u` is
the uniform draw in `[0, 1)`; walk down the probability vector, subtracting
each entry's mass, until the residual draw falls inside the current entry. -/
noncomputable def categoricalSample : List ℝ → ℝ → ℕ
  | [], _ => 0
  | x :: xs, u => if u < x then 0 else categoricalSample xs (u - x) + 1

theorem categoricalSample_lt_length (p : List ℝ) (u : ℝ)
    (h0 : 0 ≤ u) (h1 : u < p.sum) : categoricalSample p u < p.length := by
  induction p generalizing u with
  | nil =>
    simp only [List.sum_nil] at h1
    linarith
  | cons x xs ih =>
    rw [categoricalSample]
    by_cases hux : u < x
    · rw [if_pos hux]
      simp
    · rw [if_neg hux]
      push_neg at hux
      simp only [List.sum_cons] at h1
      have hrec := ih (u - x) (by linarith) (by linarith)
      simpa using Nat.succ_lt_succ hrec

/-- `Agent.act`: batch the single observation, take the first output row of
the network, softmax it, and sample one index from the resulting categorical
distribution (the uniform draw `u` stands for the RNG state consumed by
`np.random.choice`). -/
noncomputable def Agent.act (net : List ℝ → List ℝ) (observation : List ℝ)
    (u : ℝ) : ℕ :=
  categoricalSample (softmax (net observation)) u

/-- C6: the distribution `Agent.act` samples from has non-negative entries
summing to exactly 1, and the sampled action index is below the action
count (the width of the network's logit row). -/
theorem act_distribution_simplex (net : List ℝ → List ℝ)
    (observation : List ℝ) (n : ℕ) (u : ℝ)
    (hn : (net observation).length = n) (hpos : 0 < n)
    (hu0 : 0 ≤ u) (hu1 : u < 1) :
    (∀ p ∈ softmax (net observation), 0 ≤ p) ∧
      (softmax (net observation)).sum = 1 ∧
      Agent.act net observation u < n := by
  have hne : net observation ≠ [] := by
    intro h
    rw [h] at hn
    simp at hn
    omega
  have hsum := softmax_sum_one _ hne
  refine ⟨softmax_nonneg _, hsum, ?_⟩
  have hlen : (softmax (net observation)).length = n := by
    simp [softmax, hn]
  have hlt := categoricalSample_lt_length (softmax (net observation)) u hu0
    (by rw [hsum]; exact hu1)
  rw [hlen] at hlt
  exact hlt

/-- Witness for C6 at the constant two-logit network `[0, 0]` and draw
`u = 1/2`. -/
theorem act_distribution_simplex_witness :
    (∀ p ∈ softmax ((fun _ : List ℝ => [(0 : ℝ), 0]) []), 0 ≤ p) ∧
      (softmax ((fun _ : List ℝ => [(0 : ℝ), 0]) [])).sum = 1 ∧
      Agent.act (fun _ : List ℝ => [(0 : ℝ), 0]) [] (1 / 2) < 2 :=
  act_distribution_simplex (fun _ => [0, 0]) [] 2 (1 / 2) rfl (by norm_num)
    (by norm_num) (by norm_num)

/-- `mx.nd.array(a).one_hot(action_number)`: one row of width `n` with a `1`
exactly at the taken action index. -/
def onehot (n a : ℕ) : List ℝ :=
  (List.range n).map (fun j => if j = a then (1 : ℝ) else 0)

/-- One row of the forward pass of `Agent.train`: softmax of the network
output for one observation, clipped into `[1e-6, 1 - 1e-6]`, then logged. -/
noncomputable def logClipPolicy (net : List ℝ → List ℝ) (obs : List ℝ) :
    List ℝ :=
  (softmax (net obs)).map (fun q => Real.log (clip q 1e-6 (1 - 1e-6)))

/-- The scalar loss of `Agent.train`,
`loss = -mx.nd.sum(r * log_policy * a)`: with `G` the baseline-subtracted
discounted returns, multiply elementwise the per-step return (broadcast along
the action axis), the clipped-log probability matrix and the one-hot action
mask, sum everything into one scalar and negate it. -/
noncomputable def trainLoss (net : List ℝ → List ℝ) (actionNumber : ℕ)
    (ep : Episode (List ℝ) ℝ) : ℝ :=
  -(List.zipWith
      (fun (g : ℝ) (p : List ℝ × ℕ) =>
        (List.zipWith (fun l m => g * l * m) (logClipPolicy net p.1)
          (onehot actionNumber p.2)).sum)
      (subtractBaseline (discountRewards (99 / 100 : ℝ) ep.reward))
      (ep.observation.zip ep.action)).sum

/-- `Agent.train` as observable from outside: Python returns `None`, so the
observable effects are the mutated episode object and the scalar loss handed
to the optimizer step. -/
noncomputable def Agent.train (net : List ℝ → List ℝ) (actionNumber : ℕ)
    (ep : Episode (List ℝ) ℝ) : Episode (List ℝ) ℝ × ℝ :=
  (trainRewardEffect ep, trainLoss net actionNumber ep)

theorem zipWith_zero_mask_sum (g : ℝ) (xs : List ℝ) :
    ∀ zs : List ℝ, (∀ z ∈ zs, z = 0) →
      (List.zipWith (fun l m => g * l * m) xs zs).sum = 0 := by
  induction xs with
  | nil => intro zs _; simp
  | cons x xs ih =>
    intro zs hz
    cases zs with
    | nil => simp
    | cons z zs =>
      simp only [List.zipWith_cons_cons, List.sum_cons]
      rw [hz z (List.mem_cons_self z zs), ih zs
        (fun w hw => hz w (List.mem_cons_of_mem z hw))]
      ring

theorem zipWith_onehot_sum (g : ℝ) (row : List ℝ) (n a : ℕ)
    (ha : a < n) (hrow : row.length = n) :
    (List.zipWith (fun l m => g * l * m) row (onehot n a)).sum =
      g * row.getD a 0 := by
  induction row generalizing n a with
  | nil =>
    simp only [List.length_nil] at hrow
    omega
  | cons x xs ih =>
    obtain ⟨m, rfl⟩ : ∃ m, n = m + 1 := ⟨n - 1, by omega⟩
    have hexp : onehot (m + 1) a =
        (if (0 : ℕ) = a then (1 : ℝ) else 0) ::
          (List.range m).map (fun j => if j + 1 = a then (1 : ℝ) else 0) := by
      unfold onehot
      rw [List.range_succ_eq_map, List.map_cons, List.map_map]
      rfl
    rw [hexp]
    cases a with
    | zero =>
      have hc : ((if (0 : ℕ) = 0 then (1 : ℝ) else 0)) = 1 := if_pos rfl
      rw [hc]
      have hz : ∀ z ∈ (List.range m).map
          (fun j => if j + 1 = 0 then (1 : ℝ) else 0), z = 0 := by
        intro z hz
        obtain ⟨j, _, rfl⟩ := List.mem_map.mp hz
        simp
      simp only [List.zipWith_cons_cons, List.sum_cons, List.getD_cons_zero]
      rw [zipWith_zero_mask_sum g xs _ hz]
      ring
    | succ a2 =>
      have hc : ((if (0 : ℕ) = a2 + 1 then (1 : ℝ) else 0)) = 0 :=
        if_neg (by omega)
      rw [hc]
      have hfun : (fun j => if j + 1 = a2 + 1 then (1 : ℝ) else 0) =
          (fun j => if j = a2 then (1 : ℝ) else 0) := by
        funext j
        by_cases hj : j = a2
        · subst hj
          simp
        · rw [if_neg (by omega), if_neg hj]
      have htail : (List.range m).map
          (fun j => if j + 1 = a2 + 1 then (1 : ℝ) else 0) = onehot m a2 := by
        rw [hfun]
        rfl
      simp only [List.zipWith_cons_cons, List.sum_cons, List.getD_cons_succ]
      rw [htail, ih m a2 (by omega) (by simpa using hrow)]
      ring

theorem zipWith_congr_mem {α β γ : Type} (f g : α → β → γ) (l1 : List α) :
    ∀ l2 : List β, (∀ a b, a ∈ l1 → b ∈ l2 → f a b = g a b) →
      List.zipWith f l1 l2 = List.zipWith g l1 l2 := by
  induction l1 with
  | nil =>
    intro l2 _
    simp
  | cons a l1 ih =>
    intro l2 h
    cases l2 with
    | nil => simp
    | cons b l2 =>
      simp only [List.zipWith_cons_cons]
      rw [h a b (List.mem_cons_self a l1) (List.mem_cons_self b l2),
        ih l2 (fun x y hx hy =>
          h x y (List.mem_cons_of_mem a hx) (List.mem_cons_of_mem b hy))]

/-- C5: the scalar loss of `Agent.train` is minus the sum, over the steps of
the episode, of the baseline-subtracted return times the clipped log
probability of the action actually taken: the one-hot mask in
`r * log_policy * a` selects exactly the taken action's entry per row. -/
theorem trainLoss_weighted_logprob (net : List ℝ → List ℝ) (A : ℕ)
    (ep : Episode (List ℝ) ℝ)
    (hnet : ∀ obs, (net obs).length = A)
    (ha : ∀ x ∈ ep.action, x < A) :
    trainLoss net A ep =
      -(List.zipWith
          (fun (g : ℝ) (p : List ℝ × ℕ) =>
            g * (logClipPolicy net p.1).getD p.2 0)
          (subtractBaseline (discountRewards (99 / 100 : ℝ) ep.reward))
          (ep.observation.zip ep.action)).sum := by
  simp only [trainLoss]
  congr 1
  congr 1
  refine zipWith_congr_mem _ _ _ _ ?_
  rintro g ⟨obs, a⟩ _ hmem
  have hact : a ∈ ep.action := (List.of_mem_zip hmem).2
  have hlen : (logClipPolicy net obs).length = A := by
    simp [logClipPolicy, softmax, hnet obs]
  exact zipWith_onehot_sum g (logClipPolicy net obs) A a (ha a hact) hlen

/-- Witness for C5 at the constant two-logit network, a one-step episode with
observation `[1]`, action `0` and reward `1`. -/
theorem trainLoss_weighted_logprob_witness :
    trainLoss (fun _ => [(0 : ℝ), 0]) 2 ⟨[[1]], [0], [1]⟩ =
      -(List.zipWith
          (fun (g : ℝ) (p : List ℝ × ℕ) =>
            g * (logClipPolicy (fun _ => [(0 : ℝ), 0]) p.1).getD p.2 0)
          (subtractBaseline (discountRewards (99 / 100 : ℝ)
            (⟨[[1]], [0], [1]⟩ : Episode (List ℝ) ℝ).reward))
          ((⟨[[1]], [0], [1]⟩ : Episode (List ℝ) ℝ).observation.zip
            (⟨[[1]], [0], [1]⟩ : Episode (List ℝ) ℝ).action)).sum :=
  trainLoss_weighted_logprob (fun _ => [(0 : ℝ), 0]) 2 ⟨[[1]], [0], [1]⟩
    (fun _ => rfl) (by decide)

/-- The row-major ravel of the preprocessed 80×80 frame of
`AtariPreprocessedEnv._preprocess`: the crop `img[35:195]` followed by the
down-sampling `[::2, ::2, 0]` reads original pixel
`(35 + 2*(k/80), 2*(k%80), channel 0)` at flat index `k < 6400`; the
background values 144 and 109 are erased to 0 and every remaining nonzero
value is set to 1. -/
def preprocessCurr (img : ℕ → ℕ → ℕ → ℕ) : List ℚ :=
  (List.range 6400).map (fun k =>
    let p := img (35 + 2 * (k / 80)) (2 * (k % 80)) 0
    if p = 144 ∨ p = 109 ∨ p = 0 then (0 : ℚ) else 1)

/-- `AtariPreprocessedEnv._preprocess` including its state effect: return the
difference with the stored previous frame (`np.zeros_like(curr)` when none is
stored) and store the current frame as `pre_image`. -/
def preprocessStep : Option (List ℚ) → (ℕ → ℕ → ℕ → ℕ) →
    List ℚ × Option (List ℚ)
  | some p, img =>
    (List.zipWith (fun c q => c - q) (preprocessCurr img) p,
      some (preprocessCurr img))
  | none, img =>
    ((preprocessCurr img).map (fun _ => 0), some (preprocessCurr img))

/-- `AtariPreprocessedEnv.reset`: set `pre_image = None`, reset the wrapped
environment (its raw reset frame is `img`), and preprocess that frame. -/
def atariReset (img : ℕ → ℕ → ℕ → ℕ) : List ℚ × Option (List ℚ) :=
  preprocessStep none img

/-- C10: immediately after `AtariPreprocessedEnv.reset()` the returned
observation is the all-zero vector of length 6400, whatever the raw frame is:
with no stored previous frame, `_preprocess` returns `np.zeros_like(curr)`. -/
theorem atari_reset_zero_obs (img : ℕ → ℕ → ℕ → ℕ) :
    (atariReset img).1 = List.replicate 6400 (0 : ℚ) := by
  simp only [atariReset, preprocessStep]
  refine List.eq_replicate_iff.mpr ⟨?_, ?_⟩
  · simp [preprocessCurr]
  · intro b hb
    obtain ⟨z, _, rfl⟩ := List.mem_map.mp hb
    rfl

end PolicyGradient
